import Mathlib

/-!
Verification of the `dropbox-content-hasher` crate (`src/lib.rs`).

The crate computes the Dropbox "content_hash": the input stream is split into
4 MiB blocks, each block is hashed with SHA-256, and the concatenation of the
per-block digests is hashed again with SHA-256.

Embedding choices:
* Bytes are `Nat` (values `< 256` in all reachable states; the SHA-256 model
  reduces each byte mod 256 when packing words, matching the `u8` type).
* An incremental `Sha256` hasher state is modelled by the list of bytes it has
  absorbed so far; `result` applies the pure `sha256` function to that list.
  This is faithful to the `sha2` crate's streaming API, whose digest depends
  only on the concatenation of the absorbed bytes.
* `sha256` itself (the out-of-scope primitive) is implemented concretely and
  executably, so that digests such as the empty-input digest can be computed
  inside Lean.
* Rust's `usize` values here (`block_pos`, lengths) stay far below 2^64, so
  they are modelled as `Nat`.
-/

def BLOCK_SIZE : Nat := 4 * 1024 * 1024

/-- Truncate to a 32-bit word (`u32` wrap-around). -/
def w32 (x : Nat) : Nat := x % 4294967296

/-- Rotate a 32-bit word right by `n` bits. -/
def rotr (n x : Nat) : Nat := w32 (x / 2 ^ n + x % 2 ^ n * 2 ^ (32 - n))

/-- Logical shift right by `n` bits. -/
def shr (n x : Nat) : Nat := x / 2 ^ n

def bsig0 (x : Nat) : Nat := rotr 2 x ^^^ rotr 13 x ^^^ rotr 22 x

def bsig1 (x : Nat) : Nat := rotr 6 x ^^^ rotr 11 x ^^^ rotr 25 x

def ssig0 (x : Nat) : Nat := rotr 7 x ^^^ rotr 18 x ^^^ shr 3 x

def ssig1 (x : Nat) : Nat := rotr 17 x ^^^ rotr 19 x ^^^ shr 10 x

def chF (x y z : Nat) : Nat := x &&& y ^^^ (x ^^^ 4294967295) &&& z

def majF (x y z : Nat) : Nat := x &&& y ^^^ x &&& z ^^^ y &&& z

/-- The 64 SHA-256 round constants (FIPS 180-4, in decimal). -/
def sha256K : List Nat :=
  [1116352408, 1899447441, 3049323471, 3921009573, 961987163, 1508970993,
   2453635748, 2870763221, 3624381080, 310598401, 607225278, 1426881987,
   1925078388, 2162078206, 2614888103, 3248222580, 3835390401, 4022224774,
   264347078, 604807628, 770255983, 1249150122, 1555081692, 1996064986,
   2554220882, 2821834349, 2952996808, 3210313671, 3336571891, 3584528711,
   113926993, 338241895, 666307205, 773529912, 1294757372, 1396182291,
   1695183700, 1986661051, 2177026350, 2456956037, 2730485921, 2820302411,
   3259730800, 3345764771, 3516065817, 3600352804, 4094571909, 275423344,
   430227734, 506948616, 659060556, 883997877, 958139571, 1322822218,
   1537002063, 1747873779, 1955562222, 2024104815, 2227730452, 2361852424,
   2428436474, 2756734187, 3204031479, 3329325298]

/-- The SHA-256 initial hash value, eight 32-bit words in decimal. -/
def sha256H0 : List Nat :=
  [1779033703, 3144134277, 1013904242, 2773480762,
   1359893119, 2600822924, 528734635, 1541459225]

/-- Big-endian byte encoding of `x` in exactly `k` bytes. -/
def bytesBE : Nat → Nat → List Nat
  | 0, _ => []
  | k + 1, x => bytesBE k (x / 256) ++ [x % 256]

/-- Pack a byte list into big-endian 32-bit words (groups of 4 bytes). -/
def toWords : List Nat → List Nat
  | b0 :: b1 :: b2 :: b3 :: rest =>
      (b0 % 256 * 16777216 + b1 % 256 * 65536 + b2 % 256 * 256 + b3 % 256) :: toWords rest
  | _ => []

/-- SHA-256 padding: append `0x80`, zeros to 56 mod 64, then the 64-bit
big-endian bit length. -/
def padMsg (msg : List Nat) : List Nat :=
  msg ++ 0x80 :: List.replicate ((119 - msg.length % 64) % 64) 0 ++ bytesBE 8 (8 * msg.length)

/-- Extend the 16 message-schedule words by `k` more words. -/
def extendW (w : List Nat) : Nat → List Nat
  | 0 => w
  | k + 1 =>
      extendW
        (w ++ [w32 (ssig1 (w.getD (w.length - 2) 0) + w.getD (w.length - 7) 0 +
                    ssig0 (w.getD (w.length - 15) 0) + w.getD (w.length - 16) 0)]) k

/-- One SHA-256 round, acting on the eight working variables. -/
def sha256Round (st : List Nat) (kw : Nat × Nat) : List Nat :=
  match st with
  | [a, b, c, d, e, f, g, h] =>
      let t1 := w32 (h + bsig1 e + chF e f g + kw.1 + kw.2)
      let t2 := w32 (bsig0 a + majF a b c)
      [w32 (t1 + t2), a, b, c, w32 (d + t1), e, f, g]
  | st => st

/-- The SHA-256 compression function on one 64-byte block. -/
def sha256Compress (st : List Nat) (block : List Nat) : List Nat :=
  let w := extendW (toWords block) 48
  let st2 := (sha256K.zip w).foldl sha256Round st
  List.zipWith (fun x y => w32 (x + y)) st st2

/-- Fold the compression function over consecutive 64-byte blocks, gathering
the bytes of the current block in `acc`; the padded message length is a
multiple of 64, so the final `acc` is always empty. -/
def sha256Loop (st : List Nat) (acc : List Nat) : List Nat → List Nat
  | [] => st
  | b :: rest =>
      if acc.length = 63 then sha256Loop (sha256Compress st (acc ++ [b])) [] rest
      else sha256Loop st (acc ++ [b]) rest

/-- SHA-256 of a byte sequence, as a list of 32 bytes. -/
def sha256 (msg : List Nat) : List Nat :=
  (sha256Loop sha256H0 [] (padMsg msg)).foldr (fun wrd acc => bytesBE 4 wrd ++ acc) []

/-- Lowercase hexadecimal digit. -/
def hexDigitChar (n : Nat) : Char := if n < 10 then Char.ofNat (48 + n) else Char.ofNat (87 + n)

/-- Lowercase hex encoding of a byte list. -/
def toHex (bytes : List Nat) : String :=
  String.mk (bytes.foldr (fun b acc => hexDigitChar (b / 16 % 16) :: hexDigitChar (b % 16) :: acc) [])

/-- The hasher state from `src/lib.rs`: the two incremental SHA-256 states are
modelled by the byte lists they have absorbed. -/
structure DropboxContentHasher where
  overall_hasher : List Nat
  block_hasher : List Nat
  block_pos : Nat
deriving DecidableEq, Repr

namespace DropboxContentHasher

/-- `DropboxContentHasher::new` (lib.rs lines 35-41). -/
def new : DropboxContentHasher :=
  { overall_hasher := [], block_hasher := [], block_pos := 0 }

/-- `Reset::reset` (lib.rs lines 93-99): all three fields are reassigned. -/
def reset (h : DropboxContentHasher) : DropboxContentHasher :=
  { h with overall_hasher := [], block_hasher := [], block_pos := 0 }

/-- `Input::input` (lib.rs lines 101-120).  The `while input.len() > 0` loop:
if the current block is exactly full, flush its digest into `overall_hasher`
and reset the block state; then absorb `min(input.len(), space_in_block)`
bytes into `block_hasher` and continue on the rest.

If `block_pos > BLOCK_SIZE` (unreachable from valid states) the Rust
subtraction `BLOCK_SIZE - self.block_pos` would panic; that case is modelled
by the `n = 0` early return. -/
def input (h : DropboxContentHasher) (data : List Nat) : DropboxContentHasher :=
  if hne : data = [] then h
  else
    let h1 := if h.block_pos = BLOCK_SIZE then
        { overall_hasher := h.overall_hasher ++ sha256 h.block_hasher,
          block_hasher := ([] : List Nat), block_pos := 0 }
      else h
    let n := min data.length (BLOCK_SIZE - h1.block_pos)
    if hz : n = 0 then h
    else
      input { h1 with block_hasher := h1.block_hasher ++ data.take n,
                      block_pos := h1.block_pos + n } (data.drop n)
termination_by data.length
decreasing_by
  simp only [List.length_drop]
  have hd : data.length ≠ 0 := by simpa [List.length_eq_zero] using hne
  unfold_let n h1 at hz ⊢
  omega

/-- `FixedOutput::fixed_result` (lib.rs lines 125-130): flush the trailing
block if `block_pos > 0`, then return the overall digest. -/
def fixed_result (h : DropboxContentHasher) : List Nat :=
  if h.block_pos > 0 then sha256 (h.overall_hasher ++ sha256 h.block_hasher)
  else sha256 h.overall_hasher

/-- `DropboxContentHasher::hash_reader` (lib.rs lines 74-84), one loop
iteration per element of `events`.  Each successful `reader.read(&mut buf)`
yields a chunk of at most `BLOCK_SIZE` bytes (the buffer size); a zero-length
chunk is end-of-stream and breaks the loop, as does exhausting `events`; a
read error is propagated by `?` unchanged. -/
def hashReaderLoop (h : DropboxContentHasher) :
    List (Except Nat (List Nat)) → Except Nat (List Nat)
  | [] => Except.ok (fixed_result h)
  | Except.error e :: _ => Except.error e
  | Except.ok c :: rest =>
      if c = [] then Except.ok (fixed_result h)
      else hashReaderLoop (input h c) rest

/-- `hash_reader` run from a fresh hasher. -/
def hash_reader (events : List (Except Nat (List Nat))) : Except Nat (List Nat) :=
  hashReaderLoop new events

/-- One byte of input: the single-byte reference step (flush if the current
block is exactly full, then absorb the byte), used to prove chunk-boundary
independence of `input`. -/
def stepByte (h : DropboxContentHasher) (b : Nat) : DropboxContentHasher :=
  if h.block_pos = BLOCK_SIZE then
    { overall_hasher := h.overall_hasher ++ sha256 h.block_hasher,
      block_hasher := [b], block_pos := 1 }
  else
    { h with block_hasher := h.block_hasher ++ [b], block_pos := h.block_pos + 1 }

/-- Byte-at-a-time absorption: the reference semantics of `input`. -/
def feed (h : DropboxContentHasher) (data : List Nat) : DropboxContentHasher :=
  data.foldl stepByte h

/-- The state invariant: `block_pos` counts exactly the bytes absorbed into
`block_hasher` since its last reset, and never exceeds `BLOCK_SIZE`. -/
def Valid (h : DropboxContentHasher) : Prop :=
  h.block_pos = h.block_hasher.length ∧ h.block_pos ≤ BLOCK_SIZE

/-- Step 1 of `input` (lib.rs lines 105-110) as a standalone function: flush
the current block into `overall_hasher` when it is exactly full. -/
def flushIfFull (h : DropboxContentHasher) : DropboxContentHasher :=
  if h.block_pos = BLOCK_SIZE then
    { overall_hasher := h.overall_hasher ++ sha256 h.block_hasher,
      block_hasher := [], block_pos := 0 }
  else h

end DropboxContentHasher

namespace DropboxContentHasher

theorem BLOCK_SIZE_pos : 0 < BLOCK_SIZE := by decide

theorem input_nil (h : DropboxContentHasher) : input h [] = h := by
  rw [input.eq_def]
  simp

theorem input_flush (ov blk data : List Nat) (hne : data ≠ []) :
    input ⟨ov, blk, BLOCK_SIZE⟩ data = input ⟨ov ++ sha256 blk, [], 0⟩ data := by
  have hlen : data.length ≠ 0 := by simpa [List.length_eq_zero] using hne
  have hbs : ¬(0 = BLOCK_SIZE) := by decide
  have hbsz : ¬(BLOCK_SIZE = 0) := by decide
  have hmin : ¬(min data.length (BLOCK_SIZE - 0) = 0) := by
    simp only [Nat.sub_zero, Nat.min_eq_zero_iff]
    rintro (h | h)
    · exact hlen h
    · exact hbs h.symm
  conv_lhs => rw [input.eq_def]
  conv_rhs => rw [input.eq_def]
  simp [hne, hbs, hbsz, hmin]

theorem input_step (ov blk : List Nat) (bp : Nat) (data : List Nat)
    (hbp : bp < BLOCK_SIZE) (hne : data ≠ []) :
    input ⟨ov, blk, bp⟩ data =
      input ⟨ov, blk ++ data.take (min data.length (BLOCK_SIZE - bp)),
             bp + min data.length (BLOCK_SIZE - bp)⟩
        (data.drop (min data.length (BLOCK_SIZE - bp))) := by
  have hlen : data.length ≠ 0 := by simpa [List.length_eq_zero] using hne
  have hfull : ¬(bp = BLOCK_SIZE) := Nat.ne_of_lt hbp
  have hmin : ¬(min data.length (BLOCK_SIZE - bp) = 0) := by
    simp only [Nat.min_eq_zero_iff]
    rintro (h | h)
    · exact hlen h
    · omega
  conv_lhs => rw [input.eq_def]
  simp [hne, hfull, hmin]

theorem feed_nil (h : DropboxContentHasher) : feed h [] = h := rfl

theorem feed_cons (h : DropboxContentHasher) (b : Nat) (data : List Nat) :
    feed h (b :: data) = feed (stepByte h b) data := rfl

theorem feed_append (h : DropboxContentHasher) (a b : List Nat) :
    feed h (a ++ b) = feed (feed h a) b := List.foldl_append _ _ _ _

theorem stepByte_of_lt (h : DropboxContentHasher) (b : Nat) (hbp : h.block_pos < BLOCK_SIZE) :
    stepByte h b = { h with block_hasher := h.block_hasher ++ [b],
                            block_pos := h.block_pos + 1 } := by
  unfold stepByte
  rw [if_neg (Nat.ne_of_lt hbp)]

theorem stepByte_of_full (h : DropboxContentHasher) (b : Nat) (hbp : h.block_pos = BLOCK_SIZE) :
    stepByte h b = { overall_hasher := h.overall_hasher ++ sha256 h.block_hasher,
                     block_hasher := [b], block_pos := 1 } := by
  unfold stepByte
  rw [if_pos hbp]

theorem feed_flush (ov blk data : List Nat) (hne : data ≠ []) :
    feed ⟨ov, blk, BLOCK_SIZE⟩ data = feed ⟨ov ++ sha256 blk, [], 0⟩ data := by
  cases data with
  | nil => exact absurd rfl hne
  | cons b rest =>
      rw [feed_cons, feed_cons,
        stepByte_of_full ⟨ov, blk, BLOCK_SIZE⟩ b rfl,
        stepByte_of_lt ⟨ov ++ sha256 blk, [], 0⟩ b BLOCK_SIZE_pos]
      simp

theorem feed_small : ∀ (c : List Nat) (h : DropboxContentHasher),
    h.block_pos + c.length ≤ BLOCK_SIZE → (c ≠ [] → h.block_pos < BLOCK_SIZE) →
    feed h c = { h with block_hasher := h.block_hasher ++ c,
                        block_pos := h.block_pos + c.length } := by
  intro c
  induction c with
  | nil =>
      intro h _ _
      cases h
      simp [feed_nil]
  | cons b xs ih =>
      intro h hle hlt
      have hbp : h.block_pos < BLOCK_SIZE := hlt (List.cons_ne_nil b xs)
      have hle2 : h.block_pos + 1 + xs.length ≤ BLOCK_SIZE := by
        simp only [List.length_cons] at hle
        omega
      rw [feed_cons, stepByte_of_lt h b hbp]
      rw [ih { h with block_hasher := h.block_hasher ++ [b], block_pos := h.block_pos + 1 }
        (by show h.block_pos + 1 + xs.length ≤ BLOCK_SIZE; exact hle2)
        (fun hxs => by
          show h.block_pos + 1 < BLOCK_SIZE
          have hx : 1 ≤ xs.length := List.length_pos.mpr hxs
          omega)]
      simp [List.append_assoc]
      omega

theorem input_eq_feed_aux (k : Nat) : ∀ (h : DropboxContentHasher) (data : List Nat),
    data.length ≤ k → h.block_pos ≤ BLOCK_SIZE → input h data = feed h data := by
  induction k with
  | zero =>
      intro h data hlen _
      have hd : data = [] := by
        simpa [List.length_eq_zero] using Nat.le_zero.mp hlen
      subst hd
      rw [input_nil, feed_nil]
  | succ k ih =>
      intro h data hlen hbp
      by_cases hd : data = []
      · subst hd
        rw [input_nil, feed_nil]
      · have step : ∀ (ov blk : List Nat) (bp : Nat), bp < BLOCK_SIZE →
            input ⟨ov, blk, bp⟩ data = feed ⟨ov, blk, bp⟩ data := by
          intro ov blk bp hlt
          have hdlen : data.length ≠ 0 := by simpa [List.length_eq_zero] using hd
          have hnle : min data.length (BLOCK_SIZE - bp) ≤ data.length := Nat.min_le_left _ _
          have hnroom : min data.length (BLOCK_SIZE - bp) ≤ BLOCK_SIZE - bp := Nat.min_le_right _ _
          have hnpos : 0 < min data.length (BLOCK_SIZE - bp) := by
            rcases Nat.eq_zero_or_pos (min data.length (BLOCK_SIZE - bp)) with h0 | h0
            · exfalso
              rcases Nat.min_eq_zero_iff.mp h0 with h1 | h1
              · exact hdlen h1
              · omega
            · exact h0
          rw [input_step ov blk bp data hlt hd]
          rw [ih _ (data.drop (min data.length (BLOCK_SIZE - bp)))
            (by simp only [List.length_drop]; omega)
            (by show bp + min data.length (BLOCK_SIZE - bp) ≤ BLOCK_SIZE; omega)]
          conv_rhs => rw [← List.take_append_drop (min data.length (BLOCK_SIZE - bp)) data]
          rw [feed_append]
          rw [feed_small (data.take (min data.length (BLOCK_SIZE - bp))) ⟨ov, blk, bp⟩
            (by simp only [List.length_take]; show bp + _ ≤ BLOCK_SIZE; omega)
            (fun _ => hlt)]
          simp only [List.length_take]
          have hmin2 : min (min data.length (BLOCK_SIZE - bp)) data.length =
              min data.length (BLOCK_SIZE - bp) := Nat.min_eq_left hnle
          rw [hmin2]
        obtain ⟨ov, blk, bp⟩ := h
        by_cases hfull : bp = BLOCK_SIZE
        · subst hfull
          rw [input_flush ov blk data hd, feed_flush ov blk data hd]
          exact step (ov ++ sha256 blk) [] 0 BLOCK_SIZE_pos
        · exact step ov blk bp (Nat.lt_of_le_of_ne hbp hfull)

theorem input_eq_feed (h : DropboxContentHasher) (data : List Nat)
    (hbp : h.block_pos ≤ BLOCK_SIZE) : input h data = feed h data :=
  input_eq_feed_aux data.length h data le_rfl hbp

theorem stepByte_bp_le (h : DropboxContentHasher) (b : Nat)
    (hbp : h.block_pos ≤ BLOCK_SIZE) : (stepByte h b).block_pos ≤ BLOCK_SIZE := by
  by_cases hfull : h.block_pos = BLOCK_SIZE
  · rw [stepByte_of_full h b hfull]
    exact BLOCK_SIZE_pos
  · rw [stepByte_of_lt h b (Nat.lt_of_le_of_ne hbp hfull)]
    show h.block_pos + 1 ≤ BLOCK_SIZE
    omega

theorem feed_bp_le (data : List Nat) : ∀ (h : DropboxContentHasher),
    h.block_pos ≤ BLOCK_SIZE → (feed h data).block_pos ≤ BLOCK_SIZE := by
  induction data with
  | nil => intro h hbp; exact hbp
  | cons b xs ih =>
      intro h hbp
      rw [feed_cons]
      exact ih _ (stepByte_bp_le h b hbp)

theorem input_bp_le (h : DropboxContentHasher) (data : List Nat)
    (hbp : h.block_pos ≤ BLOCK_SIZE) : (input h data).block_pos ≤ BLOCK_SIZE := by
  rw [input_eq_feed h data hbp]
  exact feed_bp_le data h hbp

theorem input_append (h : DropboxContentHasher) (a b : List Nat)
    (hbp : h.block_pos ≤ BLOCK_SIZE) :
    input (input h a) b = input h (a ++ b) := by
  rw [input_eq_feed h a hbp,
    input_eq_feed (feed h a) b (by rw [← input_eq_feed h a hbp]; exact input_bp_le h a hbp),
    input_eq_feed h (a ++ b) hbp, feed_append]

theorem stepByte_valid (h : DropboxContentHasher) (b : Nat) (hv : Valid h) :
    Valid (stepByte h b) := by
  obtain ⟨hlen, hle⟩ := hv
  by_cases hfull : h.block_pos = BLOCK_SIZE
  · rw [stepByte_of_full h b hfull]
    exact ⟨rfl, BLOCK_SIZE_pos⟩
  · rw [stepByte_of_lt h b (Nat.lt_of_le_of_ne hle hfull)]
    constructor
    · show h.block_pos + 1 = (h.block_hasher ++ [b]).length
      simp [hlen]
    · show h.block_pos + 1 ≤ BLOCK_SIZE
      omega

theorem feed_valid (data : List Nat) : ∀ (h : DropboxContentHasher),
    Valid h → Valid (feed h data) := by
  induction data with
  | nil => intro h hv; exact hv
  | cons b xs ih =>
      intro h hv
      rw [feed_cons]
      exact ih _ (stepByte_valid h b hv)

theorem input_valid (h : DropboxContentHasher) (data : List Nat) (hv : Valid h) :
    Valid (input h data) := by
  rw [input_eq_feed h data hv.2]
  exact feed_valid data h hv

theorem new_valid : Valid new := ⟨rfl, Nat.zero_le _⟩

theorem foldl_input_eq_flatten (chunks : List (List Nat)) : ∀ (h : DropboxContentHasher),
    h.block_pos ≤ BLOCK_SIZE → List.foldl input h chunks = input h chunks.flatten := by
  induction chunks with
  | nil =>
      intro h _
      rw [List.foldl_nil, List.flatten_nil, input_nil]
  | cons c cs ih =>
      intro h hbp
      rw [List.foldl_cons, List.flatten_cons,
        ih (input h c) (input_bp_le h c hbp),
        input_append h c cs.flatten hbp]

theorem hashReaderLoop_nil (h : DropboxContentHasher) :
    hashReaderLoop h [] = Except.ok (fixed_result h) := rfl

theorem hashReaderLoop_err (h : DropboxContentHasher) (e : Nat)
    (rest : List (Except Nat (List Nat))) :
    hashReaderLoop h (Except.error e :: rest) = Except.error e := rfl

theorem hashReaderLoop_ok (h : DropboxContentHasher) (c : List Nat)
    (rest : List (Except Nat (List Nat))) (hc : c ≠ []) :
    hashReaderLoop h (Except.ok c :: rest) = hashReaderLoop (input h c) rest := by
  show (if c = [] then Except.ok (fixed_result h) else hashReaderLoop (input h c) rest) = _
  rw [if_neg hc]

theorem flushIfFull_bp_lt (h : DropboxContentHasher) (hbp : h.block_pos ≤ BLOCK_SIZE) :
    (flushIfFull h).block_pos < BLOCK_SIZE := by
  unfold flushIfFull
  split
  · exact BLOCK_SIZE_pos
  · omega

theorem input_flushIfFull (h : DropboxContentHasher) (data : List Nat) (hne : data ≠ []) :
    input h data = input (flushIfFull h) data := by
  obtain ⟨ov, blk, bp⟩ := h
  by_cases hfull : bp = BLOCK_SIZE
  · subst hfull
    rw [show flushIfFull ⟨ov, blk, BLOCK_SIZE⟩ = ⟨ov ++ sha256 blk, [], 0⟩ from by
      simp [flushIfFull]]
    exact input_flush ov blk data hne
  · rw [show flushIfFull ⟨ov, blk, bp⟩ = ⟨ov, blk, bp⟩ from by simp [flushIfFull, hfull]]

theorem input_step_structure (h2 : DropboxContentHasher) (data : List Nat)
    (hlt : h2.block_pos < BLOCK_SIZE) (hne : data ≠ []) :
    input h2 data =
      input ⟨h2.overall_hasher,
             h2.block_hasher ++ data.take (min data.length (BLOCK_SIZE - h2.block_pos)),
             h2.block_pos + min data.length (BLOCK_SIZE - h2.block_pos)⟩
        (data.drop (min data.length (BLOCK_SIZE - h2.block_pos))) := by
  obtain ⟨ov, blk, bp⟩ := h2
  exact input_step ov blk bp data hlt hne

theorem input_small (ov blk : List Nat) (p : Nat) (fill : List Nat)
    (hp : p < BLOCK_SIZE) (hfill : p + fill.length ≤ BLOCK_SIZE) :
    input ⟨ov, blk, p⟩ fill = ⟨ov, blk ++ fill, p + fill.length⟩ := by
  rw [input_eq_feed ⟨ov, blk, p⟩ fill (le_of_lt hp),
    feed_small fill ⟨ov, blk, p⟩ hfill (fun _ => hp)]

theorem input_boundary_aux (k : Nat) : ∀ (g : DropboxContentHasher) (data : List Nat),
    data.length ≤ k → g.block_pos = g.block_hasher.length →
    g.block_pos < BLOCK_SIZE → data ≠ [] →
    BLOCK_SIZE ∣ (g.block_pos + data.length) →
    (input g data).block_pos = BLOCK_SIZE ∧
    (input g data).block_hasher =
      (g.block_hasher ++ data).drop (g.block_pos + data.length - BLOCK_SIZE) := by
  induction k with
  | zero =>
      intro g data hlen _ _ hd _
      exact absurd (by simpa [List.length_eq_zero] using Nat.le_zero.mp hlen) hd
  | succ k ih =>
      intro g data hlen hval hlt hd hdvd
      obtain ⟨ov, blk, bp⟩ := g
      have hpos : 0 < data.length := List.length_pos.mpr hd
      by_cases hcase : data.length ≤ BLOCK_SIZE - bp
      · have hn : min data.length (BLOCK_SIZE - bp) = data.length := Nat.min_eq_left hcase
        rw [input_step ov blk bp data hlt hd, hn, List.take_length, List.drop_length, input_nil]
        have hle : bp + data.length ≤ BLOCK_SIZE := by
          have : bp < BLOCK_SIZE := hlt
          omega
        have hge : BLOCK_SIZE ≤ bp + data.length := Nat.le_of_dvd (by omega) hdvd
        have heq : bp + data.length = BLOCK_SIZE := Nat.le_antisymm hle hge
        refine ⟨heq, ?_⟩
        show blk ++ data = (blk ++ data).drop (bp + data.length - BLOCK_SIZE)
        rw [heq, Nat.sub_self, List.drop_zero]
      · push_neg at hcase
        have hn : min data.length (BLOCK_SIZE - bp) = BLOCK_SIZE - bp :=
          Nat.min_eq_right (le_of_lt hcase)
        have hroom : 0 < BLOCK_SIZE - bp := by
          have : bp < BLOCK_SIZE := hlt
          omega
        have hbpn : bp + (BLOCK_SIZE - bp) = BLOCK_SIZE := by
          have : bp < BLOCK_SIZE := hlt
          omega
        rw [input_step ov blk bp data hlt hd, hn, hbpn]
        have hrne : data.drop (BLOCK_SIZE - bp) ≠ [] := by
          intro hnil
          have hlz := congrArg List.length hnil
          simp only [List.length_drop, List.length_nil] at hlz
          omega
        rw [input_flush ov (blk ++ data.take (BLOCK_SIZE - bp)) (data.drop (BLOCK_SIZE - bp)) hrne]
        have hlen2 : (data.drop (BLOCK_SIZE - bp)).length ≤ k := by
          simp only [List.length_drop]
          omega
        have hdvd2 : BLOCK_SIZE ∣ ((0 : Nat) + (data.drop (BLOCK_SIZE - bp)).length) := by
          simp only [List.length_drop, Nat.zero_add]
          have h2 := Nat.dvd_sub' hdvd (dvd_refl BLOCK_SIZE)
          have hidx : bp + data.length - BLOCK_SIZE = data.length - (BLOCK_SIZE - bp) := by
            have : bp < BLOCK_SIZE := hlt
            omega
          rwa [hidx] at h2
        obtain ⟨h1, h2⟩ := ih ⟨ov ++ sha256 (blk ++ data.take (BLOCK_SIZE - bp)), [], 0⟩
          (data.drop (BLOCK_SIZE - bp)) hlen2 rfl BLOCK_SIZE_pos hrne hdvd2
        refine ⟨h1, ?_⟩
        rw [h2]
        simp only [List.nil_append, Nat.zero_add, List.length_drop]
        have hdl : BLOCK_SIZE ∣ (data.length - (BLOCK_SIZE - bp)) := by
          simpa using hdvd2
        have hrge : BLOCK_SIZE ≤ data.length - (BLOCK_SIZE - bp) :=
          Nat.le_of_dvd (by omega) hdl
        have hsplit : blk ++ data =
            (blk ++ data.take (BLOCK_SIZE - bp)) ++ data.drop (BLOCK_SIZE - bp) := by
          rw [List.append_assoc, List.take_append_drop]
        have hplen : (blk ++ data.take (BLOCK_SIZE - bp)).length = BLOCK_SIZE := by
          simp only [List.length_append, List.length_take]
          rw [Nat.min_eq_left (le_of_lt hcase)]
          have : bp < BLOCK_SIZE := hlt
          have hb : bp = blk.length := hval
          omega
        have hidx2 : bp + data.length - BLOCK_SIZE =
            (blk ++ data.take (BLOCK_SIZE - bp)).length + (data.length - (BLOCK_SIZE - bp) - BLOCK_SIZE) := by
          rw [hplen]
          have : bp < BLOCK_SIZE := hlt
          omega
        rw [hsplit, hidx2, List.drop_append]

theorem input_boundary (h : DropboxContentHasher) (data : List Nat)
    (hv : Valid h) (hd : data ≠ [])
    (hdvd : BLOCK_SIZE ∣ ((flushIfFull h).block_pos + data.length)) :
    (input h data).block_pos = BLOCK_SIZE ∧
    (input h data).block_hasher =
      ((flushIfFull h).block_hasher ++ data).drop
        ((flushIfFull h).block_pos + data.length - BLOCK_SIZE) := by
  rw [input_flushIfFull h data hd]
  have hg1 : (flushIfFull h).block_pos = (flushIfFull h).block_hasher.length := by
    unfold flushIfFull
    split
    · rfl
    · exact hv.1
  have hg2 : (flushIfFull h).block_pos < BLOCK_SIZE := flushIfFull_bp_lt h hv.2
  exact input_boundary_aux data.length (flushIfFull h) data le_rfl hg1 hg2 hd hdvd

/-- C1, chunking invariance: for every byte sequence `S` and every partition
of `S` into non-empty chunks whose concatenation is `S`, feeding the chunks
by successive `input` calls to a fresh hasher and finalizing yields the same
digest as a single `input S` call on a fresh hasher. -/
theorem chunking_invariance (chunks : List (List Nat)) (S : List Nat)
    (hne : [] ∉ chunks) (hcat : chunks.flatten = S) :
    fixed_result (List.foldl input new chunks) = fixed_result (input new S) := by
  subst hcat
  rw [foldl_input_eq_flatten chunks new (Nat.zero_le _)]

/-- Witness for C1 at the partition `[[0], [1, 2]]` of `[0, 1, 2]`. -/
theorem chunking_invariance_witness :
    ([] ∉ ([[0], [1, 2]] : List (List Nat))) ∧
    ([[0], [1, 2]] : List (List Nat)).flatten = [0, 1, 2] ∧
    fixed_result (List.foldl input new [[0], [1, 2]]) = fixed_result (input new [0, 1, 2]) :=
  ⟨by decide, by decide, chunking_invariance [[0], [1, 2]] [0, 1, 2] (by decide) (by decide)⟩

/-- C2, empty input: finalizing a fresh hasher yields the primitive digest of
the empty byte sequence (the overall accumulator receives no data at all),
whose lowercase hex encoding is the well-known SHA-256 empty-input value. -/
theorem empty_input_digest :
    fixed_result new = sha256 [] ∧
    toHex (fixed_result new) = "e3b0c44298fc1c149afbf4c8996fb92427ae41e4649b934ca495991b7852b855" := by
  constructor
  · rfl
  · decide

/-- C3, single-block exactness: an input of exactly `BLOCK_SIZE` bytes
digests to `sha256 (sha256 data)`, the primitive applied to the raw block
bytes and then to the raw 32-byte digest. -/
theorem single_block_exact (data : List Nat) (hlen : data.length = BLOCK_SIZE) :
    fixed_result (input new data) = sha256 (sha256 data) := by
  have hne : data ≠ [] := by
    intro h
    rw [h] at hlen
    exact absurd hlen.symm (Nat.ne_of_gt BLOCK_SIZE_pos)
  have hstep := input_step [] [] 0 data BLOCK_SIZE_pos hne
  rw [Nat.sub_zero, hlen, Nat.min_self] at hstep
  show fixed_result (input ⟨[], [], 0⟩ data) = sha256 (sha256 data)
  rw [hstep, ← hlen, List.take_length, List.drop_length, input_nil]
  have hpos : 0 < 0 + data.length := by
    rw [Nat.zero_add, hlen]
    exact BLOCK_SIZE_pos
  simp [fixed_result, hpos]
  intro h
  exact absurd h hne

/-- Witness for C3 at the all-zero block of `BLOCK_SIZE` bytes. -/
theorem single_block_exact_witness :
    (List.replicate BLOCK_SIZE 0).length = BLOCK_SIZE ∧
    fixed_result (input new (List.replicate BLOCK_SIZE 0)) =
      sha256 (sha256 (List.replicate BLOCK_SIZE 0)) :=
  ⟨by simp, single_block_exact (List.replicate BLOCK_SIZE 0) (by simp)⟩

/-- C4, multi-block boundary: an input of `BLOCK_SIZE + 1` bytes digests to
the primitive applied to the concatenation, in input order, of the digests
of the first `BLOCK_SIZE` bytes and of the last byte. -/
theorem multi_block_boundary (data : List Nat) (hlen : data.length = BLOCK_SIZE + 1) :
    fixed_result (input new data) =
      sha256 (sha256 (data.take BLOCK_SIZE) ++ sha256 (data.drop BLOCK_SIZE)) := by
  have hne : data ≠ [] := by
    intro h
    rw [h] at hlen
    exact Nat.succ_ne_zero BLOCK_SIZE hlen.symm
  have hmin : min data.length (BLOCK_SIZE - 0) = BLOCK_SIZE := by
    rw [Nat.sub_zero, hlen]
    exact Nat.min_eq_right (Nat.le_succ _)
  have hdrop : (data.drop BLOCK_SIZE).length = 1 := by
    rw [List.length_drop, hlen]
    omega
  have hdne : data.drop BLOCK_SIZE ≠ [] := by
    intro h
    rw [h] at hdrop
    cases hdrop
  have hstep1 := input_step [] [] 0 data BLOCK_SIZE_pos hne
  rw [hmin] at hstep1
  show fixed_result (input ⟨[], [], 0⟩ data) = _
  rw [hstep1, List.nil_append, Nat.zero_add,
    input_flush [] (data.take BLOCK_SIZE) (data.drop BLOCK_SIZE) hdne]
  have hmin2 : min (data.drop BLOCK_SIZE).length (BLOCK_SIZE - 0) = 1 := by
    rw [Nat.sub_zero, hdrop]
    have := BLOCK_SIZE_pos
    omega
  have hstep2 := input_step ([] ++ sha256 (data.take BLOCK_SIZE)) [] 0 (data.drop BLOCK_SIZE)
    BLOCK_SIZE_pos hdne
  rw [hmin2] at hstep2
  rw [hstep2, List.take_of_length_le (le_of_eq hdrop), List.drop_eq_nil_of_le (le_of_eq hdrop),
    input_nil]
  simp [fixed_result]

/-- Witness for C4 at the all-zero input of `BLOCK_SIZE + 1` bytes. -/
theorem multi_block_boundary_witness :
    (List.replicate (BLOCK_SIZE + 1) 0).length = BLOCK_SIZE + 1 ∧
    fixed_result (input new (List.replicate (BLOCK_SIZE + 1) 0)) =
      sha256 (sha256 ((List.replicate (BLOCK_SIZE + 1) 0).take BLOCK_SIZE) ++
              sha256 ((List.replicate (BLOCK_SIZE + 1) 0).drop BLOCK_SIZE)) :=
  ⟨by simp, multi_block_boundary (List.replicate (BLOCK_SIZE + 1) 0) (by simp)⟩

/-- C5, lazy flush: (1) a pending exactly-full block is flushed at the start
of the next `input` call that supplies bytes, whatever that call's length;
(2) `fixed_result` flushes the current block unconditionally whenever
`block_pos > 0`, including the case `block_pos = BLOCK_SIZE`; (3) it skips
the flush entirely when `block_pos = 0`; (4) an `input` call that fills the
current block from any mid-block position `p` without crossing it leaves
`overall_hasher` untouched and the block unflushed — with
`p + fill.length = BLOCK_SIZE` the block is exactly full at the end of the
call and still not flushed; (5) any `input` call from a valid state that
ends exactly at a block boundary, spanning any number of blocks, ends with
`block_pos = BLOCK_SIZE` and the whole final block still pending in
`block_hasher`: the block state is not reset, so the final full block was
not flushed during that call. -/
theorem lazy_flush (ov blk data1 : List Nat) (bp p : Nat) (fill : List Nat)
    (h : DropboxContentHasher) (data : List Nat)
    (hd1 : data1 ≠ []) (hbp : 0 < bp)
    (hp : p < BLOCK_SIZE) (hfill : p + fill.length ≤ BLOCK_SIZE)
    (hv : Valid h) (hd : data ≠ [])
    (hdvd : BLOCK_SIZE ∣ ((flushIfFull h).block_pos + data.length)) :
    input ⟨ov, blk, BLOCK_SIZE⟩ data1 = input ⟨ov ++ sha256 blk, [], 0⟩ data1 ∧
    fixed_result ⟨ov, blk, bp⟩ = sha256 (ov ++ sha256 blk) ∧
    fixed_result ⟨ov, blk, 0⟩ = sha256 ov ∧
    input ⟨ov, blk, p⟩ fill = ⟨ov, blk ++ fill, p + fill.length⟩ ∧
    ((input h data).block_pos = BLOCK_SIZE ∧
     (input h data).block_hasher =
       ((flushIfFull h).block_hasher ++ data).drop
         ((flushIfFull h).block_pos + data.length - BLOCK_SIZE)) := by
  refine ⟨input_flush ov blk data1 hd1, ?_, ?_, input_small ov blk p fill hp hfill,
    input_boundary h data hv hd hdvd⟩
  · simp [fixed_result, hbp]
  · simp [fixed_result]

/-- Witness for C5: pending block flushed by the next call on `[0]`;
finalize at `bp = BLOCK_SIZE`; mid-block fill from position `1` with `[7]`;
and a boundary-ending call feeding `BLOCK_SIZE` bytes to a fresh hasher. -/
theorem lazy_flush_witness :
    ([0] : List Nat) ≠ [] ∧ 0 < BLOCK_SIZE ∧ 1 < BLOCK_SIZE ∧
    1 + ([7] : List Nat).length ≤ BLOCK_SIZE ∧ Valid new ∧
    List.replicate BLOCK_SIZE 0 ≠ [] ∧
    BLOCK_SIZE ∣ ((flushIfFull new).block_pos + (List.replicate BLOCK_SIZE 0).length) ∧
    (input ⟨[], [], BLOCK_SIZE⟩ [0] = input ⟨[] ++ sha256 [], [], 0⟩ [0] ∧
     fixed_result ⟨[], [], BLOCK_SIZE⟩ = sha256 ([] ++ sha256 []) ∧
     fixed_result ⟨[], [], 0⟩ = sha256 [] ∧
     input ⟨[], [], 1⟩ [7] = ⟨[], [] ++ [7], 1 + ([7] : List Nat).length⟩ ∧
     ((input new (List.replicate BLOCK_SIZE 0)).block_pos = BLOCK_SIZE ∧
      (input new (List.replicate BLOCK_SIZE 0)).block_hasher =
        ((flushIfFull new).block_hasher ++ List.replicate BLOCK_SIZE 0).drop
          ((flushIfFull new).block_pos + (List.replicate BLOCK_SIZE 0).length - BLOCK_SIZE))) :=
  have hrep : List.replicate BLOCK_SIZE 0 ≠ [] :=
    List.ne_nil_of_length_pos (by rw [List.length_replicate]; exact BLOCK_SIZE_pos)
  have hdvd : BLOCK_SIZE ∣ ((flushIfFull new).block_pos + (List.replicate BLOCK_SIZE 0).length) := by
    rw [show (flushIfFull new).block_pos = 0 from rfl, List.length_replicate, Nat.zero_add]
  ⟨by decide, BLOCK_SIZE_pos, by decide, by decide, new_valid, hrep, hdvd,
   lazy_flush [] [] [0] BLOCK_SIZE 1 [7] new (List.replicate BLOCK_SIZE 0)
     (by decide) BLOCK_SIZE_pos (by decide) (by decide) new_valid hrep hdvd⟩

/-- C6, idempotent reuse via reset: `reset` restores the fresh state `new`
(both primitive instances fresh, `block_pos = 0`), so feeding any byte
sequence after a `reset` and finalizing gives exactly the digest a freshly
constructed hasher would give on that sequence. -/
theorem reset_idempotent_reuse (h : DropboxContentHasher) (data : List Nat) :
    reset h = new ∧
    fixed_result (input (reset h) data) = fixed_result (input new data) :=
  ⟨rfl, rfl⟩

/-- C7, state invariant: `new`, `reset`, and any completed `input` call
preserve the invariant that `block_pos` equals the number of bytes absorbed
into `block_hasher` since its last reset and satisfies
`block_pos ≤ BLOCK_SIZE`. -/
theorem block_pos_invariant (h : DropboxContentHasher) (data : List Nat) (hv : Valid h) :
    Valid new ∧ Valid (reset h) ∧ Valid (input h data) :=
  ⟨new_valid, ⟨rfl, Nat.zero_le _⟩, input_valid h data hv⟩

/-- Witness for C7 at the fresh state and input `[5]`. -/
theorem block_pos_invariant_witness :
    Valid new ∧ (Valid new ∧ Valid (reset new) ∧ Valid (input new [5])) :=
  ⟨new_valid, block_pos_invariant new [5] new_valid⟩

/-- C8, streaming wrapper: for a byte source that yields the non-empty
chunks `chunks` (concatenation `chunks.flatten`) and then end-of-stream,
`hash_reader` returns exactly the core digest of `chunks.flatten`; for a
source whose read fails with `e` after those chunks, the error `e` is
returned unchanged and no digest is produced.  The `BLOCK_SIZE` buffer bound
on chunk sizes is not needed for either conclusion. -/
theorem hash_reader_spec (chunks : List (List Nat)) (e : Nat)
    (rest : List (Except Nat (List Nat))) (hne : [] ∉ chunks) :
    hash_reader (chunks.map Except.ok) =
      Except.ok (fixed_result (input new chunks.flatten)) ∧
    hash_reader (chunks.map Except.ok ++ Except.error e :: rest) = Except.error e := by
  have main : ∀ (cs : List (List Nat)) (h : DropboxContentHasher),
      h.block_pos ≤ BLOCK_SIZE → [] ∉ cs →
      hashReaderLoop h (cs.map Except.ok) = Except.ok (fixed_result (input h cs.flatten)) ∧
      hashReaderLoop h (cs.map Except.ok ++ Except.error e :: rest) = Except.error e := by
    intro cs
    induction cs with
    | nil =>
        intro h hbp _
        constructor
        · rw [List.map_nil, hashReaderLoop_nil, List.flatten_nil, input_nil]
        · rw [List.map_nil, List.nil_append, hashReaderLoop_err]
    | cons c cs ih =>
        intro h hbp hnin
        have hcne : c ≠ [] := by
          intro hc
          exact hnin (by rw [← hc] at hnin ⊢; exact List.mem_cons_self c cs)
        have hnin2 : [] ∉ cs := fun hm => hnin (List.mem_cons_of_mem _ hm)
        have hbp2 : (input h c).block_pos ≤ BLOCK_SIZE := input_bp_le h c hbp
        constructor
        · rw [List.map_cons, hashReaderLoop_ok h c _ hcne,
            (ih (input h c) hbp2 hnin2).1, List.flatten_cons,
            input_append h c cs.flatten hbp]
        · rw [List.map_cons, List.cons_append, hashReaderLoop_ok h c _ hcne,
            (ih (input h c) hbp2 hnin2).2]
  exact main chunks new (Nat.zero_le _) hne

/-- Witness for C8 at the single-chunk source `[[3]]` and error code `7`. -/
theorem hash_reader_spec_witness :
    ([] ∉ ([[3]] : List (List Nat))) ∧
    (hash_reader (([[3]] : List (List Nat)).map Except.ok) =
       Except.ok (fixed_result (input new ([[3]] : List (List Nat)).flatten)) ∧
     hash_reader (([[3]] : List (List Nat)).map Except.ok ++ Except.error 7 :: []) =
       Except.error 7) :=
  ⟨by decide, hash_reader_spec [[3]] 7 [] (by decide)⟩

/-- C9, totality of `input`: from any state satisfying the `block_pos`
invariant bound and any non-empty remaining input, the split of step 2 takes
exactly `min (remaining length) (BLOCK_SIZE - block_pos)` bytes after the
step-1 flush; that count is positive, within the input, and never more than
the room left in the current block, and the loop makes strict progress, so
`input` terminates (it is a total Lean function) and cannot fail. -/
theorem input_total_split (h : DropboxContentHasher) (data : List Nat)
    (hbp : h.block_pos ≤ BLOCK_SIZE) (hne : data ≠ []) :
    0 < min data.length (BLOCK_SIZE - (flushIfFull h).block_pos) ∧
    min data.length (BLOCK_SIZE - (flushIfFull h).block_pos) ≤ data.length ∧
    min data.length (BLOCK_SIZE - (flushIfFull h).block_pos) ≤
      BLOCK_SIZE - (flushIfFull h).block_pos ∧
    (data.drop (min data.length (BLOCK_SIZE - (flushIfFull h).block_pos))).length <
      data.length ∧
    input h data =
      input ⟨(flushIfFull h).overall_hasher,
             (flushIfFull h).block_hasher ++
               data.take (min data.length (BLOCK_SIZE - (flushIfFull h).block_pos)),
             (flushIfFull h).block_pos +
               min data.length (BLOCK_SIZE - (flushIfFull h).block_pos)⟩
        (data.drop (min data.length (BLOCK_SIZE - (flushIfFull h).block_pos))) := by
  have hlt := flushIfFull_bp_lt h hbp
  have hdlen : data.length ≠ 0 := by simpa [List.length_eq_zero] using hne
  have hpos : 0 < min data.length (BLOCK_SIZE - (flushIfFull h).block_pos) :=
    Nat.lt_min.mpr ⟨Nat.pos_of_ne_zero hdlen, by omega⟩
  refine ⟨hpos, Nat.min_le_left _ _, Nat.min_le_right _ _, ?_, ?_⟩
  · simp only [List.length_drop]
    have := Nat.min_le_left data.length (BLOCK_SIZE - (flushIfFull h).block_pos)
    omega
  · rw [input_flushIfFull h data hne]
    exact input_step_structure (flushIfFull h) data hlt hne

/-- Witness for C9 at the fresh state and input `[0]`. -/
theorem input_total_split_witness :
    new.block_pos ≤ BLOCK_SIZE ∧ ([0] : List Nat) ≠ [] ∧
    (0 < min ([0] : List Nat).length (BLOCK_SIZE - (flushIfFull new).block_pos) ∧
     min ([0] : List Nat).length (BLOCK_SIZE - (flushIfFull new).block_pos) ≤
       ([0] : List Nat).length ∧
     min ([0] : List Nat).length (BLOCK_SIZE - (flushIfFull new).block_pos) ≤
       BLOCK_SIZE - (flushIfFull new).block_pos ∧
     (([0] : List Nat).drop
         (min ([0] : List Nat).length (BLOCK_SIZE - (flushIfFull new).block_pos))).length <
       ([0] : List Nat).length ∧
     input new [0] =
       input ⟨(flushIfFull new).overall_hasher,
              (flushIfFull new).block_hasher ++
                ([0] : List Nat).take
                  (min ([0] : List Nat).length (BLOCK_SIZE - (flushIfFull new).block_pos)),
              (flushIfFull new).block_pos +
                min ([0] : List Nat).length (BLOCK_SIZE - (flushIfFull new).block_pos)⟩
         (([0] : List Nat).drop
            (min ([0] : List Nat).length (BLOCK_SIZE - (flushIfFull new).block_pos)))) :=
  ⟨Nat.zero_le _, by decide, input_total_split new [0] (Nat.zero_le _) (by decide)⟩

/-- C10, empty input is a no-op: `input` with a zero-length byte sequence
returns the state unchanged — all three fields identical — for every state,
including `block_pos = BLOCK_SIZE`, so an empty input never triggers the
pending-block flush. -/
theorem input_empty_noop (h : DropboxContentHasher) :
    input h [] = h ∧
    (input h []).overall_hasher = h.overall_hasher ∧
    (input h []).block_hasher = h.block_hasher ∧
    (input h []).block_pos = h.block_pos := by
  have hn := input_nil h
  exact ⟨hn, by rw [hn], by rw [hn], by rw [hn]⟩
